import Mathlib

/-!
Verification of the react-native-libprisma syntax-highlighting core.

The development shallowly embeds the C++ sources:
  * `react-native-libprisma/cpp/HybridLibprisma.cpp` — the bridge object:
    `loadGrammars`, `gzip_decompress` (abstracted over zlib), `base64_decode`,
    `escapeJson`, `tokensToJson`, `tokenNodeToJson`, `tokenizeToJson`;
  * `common/cpp/libprisma/Highlight.h` — `Pattern` construction and
    `Pattern::match` (lookbehind emulation, failed-compile fallback regex).

Strings are modelled as `List Char`; byte strings as `List Nat`.
The recursive tokenizer engine (`SyntaxHighlighter::tokenize` of
`libprisma/SyntaxHighlighter.cpp`) and the consumer-side `parse` of the wire
format are not part of this repository's sources; where a claim needs them,
they are modelled from the spec and their doc comments say so.
-/

namespace Libprisma

mutual

/-- A node of the output token tree, mirroring `TokenListNode` from
`libprisma/TokenList.h` as consumed by `HybridLibprisma::tokenNodeToJson`:
a `text` leaf holds a raw substring; a syntax node (`Token.node`) holds a
token-type name, an alias (empty string = none) and a child token list. -/
inductive Token where
  | text (s : List Char) : Token
  | node (ty al : List Char) (children : TokList) : Token

/-- The `TokenList` container of `libprisma/TokenList.h`, a linked list of
token nodes. -/
inductive TokList where
  | nil : TokList
  | cons (t : Token) (ts : TokList) : TokList

end

/-- One escaped character, from the `switch` in `HybridLibprisma::escapeJson`:
quote, backslash, backspace, form feed, newline, carriage return and tab are
escaped; every other byte is passed through unchanged. -/
def escChar (c : Char) : List Char :=
  if c = '"' then ['\\', '"']
  else if c = '\\' then ['\\', '\\']
  else if c = Char.ofNat 8 then ['\\', 'b']
  else if c = Char.ofNat 12 then ['\\', 'f']
  else if c = '\n' then ['\\', 'n']
  else if c = Char.ofNat 13 then ['\\', 'r']
  else if c = '\t' then ['\\', 't']
  else [c]

/-- `HybridLibprisma::escapeJson`: escape a string character by character. -/
def escapeJson : List Char → List Char
  | [] => []
  | c :: s => escChar c ++ escapeJson s

/-- Literal wire fragment `{"type":"text","content":"`. -/
def wireTextHead : List Char := ("\x7b\"type\":\"text\",\"content\":\"").toList

/-- Literal wire fragment `{"type":"`. -/
def wireTypeHead : List Char := ("\x7b\"type\":\"").toList

/-- Literal wire fragment `","alias":"`. -/
def wireAliasHead : List Char := ("\",\"alias\":\"").toList

/-- Literal wire fragment `","content":`. -/
def wireContentHead : List Char := ("\",\"content\":").toList

mutual

/-- `HybridLibprisma::tokenNodeToJson`: render one token tree node.
A syntax node emits `{"type":T[,"alias":A],"content": <array> | ""}` —
the content is a token array (the inlined body of `tokensToJson`) when the
child list is non-empty and the empty string otherwise; a text node emits
`{"type":"text","content":"V"}`. -/
def tokenNodeToJson : Token → List Char
  | .text s => wireTextHead ++ escapeJson s ++ ('"' :: [Char.ofNat 125])
  | .node ty al cs =>
      wireTypeHead ++ escapeJson ty ++
        (match al with
          | [] => []
          | _ => wireAliasHead ++ escapeJson al) ++
        wireContentHead ++
        (match cs with
          | .nil => ('"' :: ['"'])
          | .cons c cs' => '[' :: (tokenNodeToJson c ++ tokensTail cs') ++ [']']) ++
        [Char.ofNat 125]

/-- The nodes of a rendered token array after the first, each preceded by a
comma (the `first` flag loop of `HybridLibprisma::tokensToJson`). -/
def tokensTail : TokList → List Char
  | .nil => []
  | .cons t ts => ',' :: tokenNodeToJson t ++ tokensTail ts

end

/-- The body of a rendered token array: the first node carries no comma. -/
def tokensBody : TokList → List Char
  | .nil => []
  | .cons t ts => tokenNodeToJson t ++ tokensTail ts

/-- `HybridLibprisma::tokensToJson`: render a token list as a JSON array,
comma-separating the nodes. -/
def tokensToJson (ts : TokList) : List Char :=
  '[' :: tokensBody ts ++ [']']

/-- Modelled from the spec: the `parse` half of the round-trip contract
(§4.4, §8) is not in this repository (the JavaScript side applies a JSON
parser to the wire string); this is the inverse of a JSON string escape.
Decodes one character escape: the escapes `escapeJson` can emit plus the
solidus escape of the JSON grammar; anything else (including `\u`, which
`escapeJson` never emits) is rejected. -/
def unescChar (c : Char) : Option Char :=
  if c = '"' then some '"'
  else if c = '\\' then some '\\'
  else if c = '/' then some '/'
  else if c = 'b' then some (Char.ofNat 8)
  else if c = 'f' then some (Char.ofNat 12)
  else if c = 'n' then some '\n'
  else if c = 'r' then some (Char.ofNat 13)
  else if c = 't' then some '\t'
  else none

mutual

/-- Modelled from the spec: strict JSON string-body parser (RFC 8259), used
by `parse`. Reads characters after an opening quote up to the closing quote,
decoding backslash escapes; an unescaped control character (code point below
0x20) makes the input invalid JSON and parsing fails. Returns the decoded
string and the unconsumed remainder. -/
def parseStringBody : List Char → Option (List Char × List Char)
  | [] => none
  | c :: rest =>
      if c = '"' then some ([], rest)
      else if c = '\\' then parseEscTail rest
      else if c.toNat < 32 then none
      else (parseStringBody rest).map (fun p => (c :: p.1, p.2))

/-- The continuation of `parseStringBody` after a backslash: decode the
escape and go on. -/
def parseEscTail : List Char → Option (List Char × List Char)
  | [] => none
  | e :: rest =>
      match unescChar e with
      | some d => (parseStringBody rest).map (fun p => (d :: p.1, p.2))
      | none => none

end

/-- Consume an expected literal fragment from the front of the input. -/
def expectLit : List Char → List Char → Option (List Char)
  | [], s => some s
  | _ :: _, [] => none
  | l :: ls, c :: cs => if c = l then expectLit ls cs else none

mutual

/-- Modelled from the spec: the `parse` half of the round-trip contract,
reading one node of the wire format emitted by `tokenNodeToJson`.
`{"type":"text","content":"V"}` parses to a text leaf;
`{"type":T[,"alias":A],"content":[…]}` parses to a syntax node. The fuel
argument bounds the recursion depth. -/
def parseTok : Nat → List Char → Option (Token × List Char)
  | 0, _ => none
  | fuel + 1, s => do
      let s ← expectLit wireTypeHead s
      let (ty, s) ← parseStringBody s
      let (al, s) ←
        match expectLit ((",\"alias\":\"").toList) s with
        | some s' => parseStringBody s'
        | none => some ([], s)
      let s ← expectLit ((",\"content\":").toList) s
      match s with
      | '"' :: s => do
          let (v, s) ← parseStringBody s
          let s ← expectLit [Char.ofNat 125] s
          if ty = ("text").toList ∧ al = [] then pure (Token.text v, s)
          else none
      | '[' :: _ => do
          let (cs, s) ← parseToks fuel s
          let s ← expectLit [Char.ofNat 125] s
          pure (Token.node ty al cs, s)
      | _ => none
termination_by structural fuel => fuel

/-- Modelled from the spec: parse a JSON array of token nodes (the shape
`tokensToJson` emits). -/
def parseToks : Nat → List Char → Option (TokList × List Char)
  | 0, _ => none
  | fuel + 1, s =>
      match s with
      | '[' :: ']' :: s => some (.nil, s)
      | '[' :: s => do
          let (t, s) ← parseTok fuel s
          let (ts, s) ← parseMore fuel s
          pure (TokList.cons t ts, s)
      | _ => none
termination_by structural fuel => fuel

/-- Modelled from the spec: parse the remaining `,node` elements of a token
array up to the closing bracket. -/
def parseMore : Nat → List Char → Option (TokList × List Char)
  | 0, _ => none
  | fuel + 1, s =>
      match s with
      | ']' :: s => some (.nil, s)
      | ',' :: s => do
          let (t, s) ← parseTok fuel s
          let (ts, s) ← parseMore fuel s
          pure (TokList.cons t ts, s)
      | _ => none
termination_by structural fuel => fuel

end

/-- Modelled from the spec: `parse` of the round-trip contract — parse a full
wire string as a token tree, requiring the whole input to be consumed. The
fuel is sufficient for any tree whose wire form is the input. -/
def parse (s : List Char) : Option TokList :=
  match parseToks (s.length + 1) s with
  | some (ts, []) => some ts
  | _ => none

/-- A character the wire escape handles invertibly under a strict JSON
parser: anything at or above 0x20, or one of the five control characters the
`escapeJson` switch escapes. Control characters outside this set are passed
through raw by `escapeJson`, producing invalid JSON. -/
def goodChar (c : Char) : Bool :=
  decide (32 ≤ c.toNat) || c = Char.ofNat 8 || c = Char.ofNat 12 ||
    c = '\n' || c = Char.ofNat 13 || c = '\t'

/-- Every character of the string is `goodChar`. -/
def goodStr (s : List Char) : Bool := s.all goodChar

mutual

/-- Well-formedness of a token node as the tokenizer produces it: syntax
nodes carry a non-empty child list, and every string avoids the raw control
characters `escapeJson` cannot escape. -/
def wfTok : Token → Bool
  | .text s => goodStr s
  | .node ty al cs =>
      goodStr ty && goodStr al &&
        (match cs with | .nil => false | .cons _ _ => true) && wfToks cs

/-- `wfTok` on every node of a token list. -/
def wfToks : TokList → Bool
  | .nil => true
  | .cons t ts => wfTok t && wfToks ts

end

mutual

/-- Parser-fuel measure of a token tree: enough fuel to parse the node and
its rendered children. -/
def sizeTok : Token → Nat
  | .text _ => 1
  | .node _ _ cs => sizeToks cs + 2

/-- Node-count measure of a token list. -/
def sizeToks : TokList → Nat
  | .nil => 1
  | .cons t ts => sizeTok t + sizeToks ts

end

mutual

/-- The leaf text of one token node, in tree order. -/
def leavesTok : Token → List Char
  | .text s => s
  | .node _ _ cs => leavesToks cs

/-- The concatenated leaf text of a token list, in tree order. -/
def leavesToks : TokList → List Char
  | .nil => []
  | .cons t ts => leavesTok t ++ leavesToks ts

end

/-- Modelled from the spec: one grammar rule of the tokenizer engine
(`SyntaxHighlighter.cpp` is not among this repository's sources). It carries
the token-type name, the alias, the pattern's search behaviour — abstracted
as a function returning the effective match as an (offset, length) pair
within the scanned window, exactly the interface `Pattern::match` presents
after lookbehind adjustment — and an optional nested-language identifier
resolved through the registry at tokenize time (spec §3, §4.1, §9). -/
structure MPattern where
  tokType : List Char
  tokAlias : List Char
  search : List Char → Option (Nat × Nat)
  inside : Option (List Char)

/-- Modelled from the spec: the grammar registry, a mapping from language
identifier to an ordered rule list (spec §3). -/
def Registry : Type := List (List Char × List MPattern)

/-- Modelled from the spec: `Registry.lookup` (spec §4.2). -/
def lookupGrammar : Registry → List Char → Option (List MPattern)
  | [], _ => none
  | (l, g) :: rest, lang => if l = lang then some g else lookupGrammar rest lang

/-- Modelled from the spec: a pattern's search result, accepted only when it
is a well-formed non-empty span inside the scanned window — a zero-length
match is treated as no-match (spec §4.3 step 8). -/
def validSearch (rem : List Char) (p : MPattern) : Option (Nat × Nat) :=
  match p.search rem with
  | some (s, l) => if 0 < l ∧ s + l ≤ rem.length then some (s, l) else none
  | none => none

/-- Modelled from the spec: the first rule, in declaration order, producing a
valid (non-empty) match in the window (spec §4.3 steps 2–3). -/
def firstMatch : List MPattern → List Char → Option (MPattern × Nat × Nat)
  | [], _ => none
  | p :: ps, rem =>
      match validSearch rem p with
      | some (s, l) => some (p, s, l)
      | none => firstMatch ps rem

/-- Modelled from the spec: whether any rule's search reported a match at all
(possibly zero-length) in the window. -/
def anySearchHit (g : List MPattern) (rem : List Char) : Bool :=
  g.any (fun p => (p.search rem).isSome)

/-- Modelled from the spec: the recursive scanning loop of the tokenizer
engine (spec §4.3), over the remaining input window. The first rule with a
valid match wins; text before the match is emitted as a text token; a rule
with a nested grammar has its matched span re-tokenized; a zero-length match
is treated as no-match, and when only zero-length matches were reported the
cursor advances by one, emitting one text character (step 8); when no rule
reports anything the remainder is one final text token (step 7). The fuel
makes totality explicit; an exhausted fuel emits the remainder as text. -/
def tokLoop (reg : Registry) : Nat → List MPattern → List Char → TokList
  | 0, _, rem => (match rem with | [] => .nil | _ => .cons (.text rem) .nil)
  | fuel + 1, g, rem =>
      match rem with
      | [] => .nil
      | c :: rest =>
          match firstMatch g (c :: rest) with
          | some (p, s, l) =>
              let gap := (c :: rest).take s
              let matched := ((c :: rest).drop s).take l
              let children :=
                match p.inside with
                | none => TokList.cons (.text matched) .nil
                | some lang =>
                    match lookupGrammar reg lang with
                    | none => TokList.cons (.text matched) .nil
                    | some inner => tokLoop reg fuel inner matched
              let tail := tokLoop reg fuel g ((c :: rest).drop (s + l))
              (match s with
                | 0 => TokList.cons (.node p.tokType p.tokAlias children) tail
                | _ => .cons (.text gap)
                    (.cons (.node p.tokType p.tokAlias children) tail))
          | none =>
              if anySearchHit g (c :: rest) then
                .cons (.text [c]) (tokLoop reg fuel g rest)
              else .cons (.text (c :: rest)) .nil

/-- Modelled from the spec: `tokenize(code, language)` — resolve the grammar
table; an unknown language yields the whole input as a single text token
(spec §4.3 contract line); otherwise run the scanning loop. -/
def tokenize (reg : Registry) (code lang : List Char) : TokList :=
  match lookupGrammar reg lang with
  | none => .cons (.text code) .nil
  | some g => tokLoop reg (code.length + 1) g code

/-- The result data of one `std::regex_search` call as `Pattern::match` reads
it: `rpos` is `m.position()` (offset of the match from the search start),
`rlen` is `m[0].length()`, and `g1len` is `some` of `m[1].length()` exactly
when `m[1].matched`. -/
structure RegexMatch where
  rpos : Nat
  rlen : Nat
  g1len : Option Nat

/-- The type of the regex-search primitive `Pattern::match` is built on:
given the text and the start position, search `[text.data()+pos,
text.data()+size)` and report a match or none. -/
def RSearch : Type := List Char → Nat → Option RegexMatch

/-- `Pattern::match` from `libprisma/Highlight.h`, abstracted over the
compiled regex's search behaviour. On success, `pos` is advanced to the match
start (`pos += m.position()`); when the pattern's lookbehind flag is set and
the first capture group matched, `pos` is advanced further by that group's
length and the returned view drops that prefix from the full match
(`text.substr(pos, m[0].length() - lookbehindLength)`). Returns the
`success` flag, the updated `pos` and the returned view. -/
def patternMatch (rsearch : RSearch) (lookbehind : Bool)
    (text : List Char) (pos : Nat) : Bool × Nat × List Char :=
  match rsearch text pos with
  | none => (false, pos, [])
  | some m =>
      let pos1 := pos + m.rpos
      match lookbehind, m.g1len with
      | true, some lb => (true, pos1 + lb, (text.drop (pos1 + lb)).take (m.rlen - lb))
      | true, none => (true, pos1, (text.drop pos1).take m.rlen)
      | false, _ => (true, pos1, (text.drop pos1).take m.rlen)

/-- The search behaviour of the fallback regex `std::regex("$^")` installed
by the `Pattern` constructor when compilation of the source regex throws
(`libprisma/Highlight.h`). Under ECMAScript semantics without the multiline
flag, `$` asserts the position is the end of the searched sequence and `^`
asserts it is the beginning; `regex_search(text.data()+pos,
text.data()+size, …)` therefore finds a (zero-length) match exactly when the
searched range is empty, i.e. when `pos` is the end of the text — including
the whole-text search over an empty text. -/
def neverMatchSearch : RSearch :=
  fun text pos => if text.length ≤ pos then some ⟨0, 0, none⟩ else none

/-- The `Pattern` constructor's regex field (`libprisma/Highlight.h`): a
source regex that compiles keeps its own search behaviour; a source regex
whose compilation throws `std::regex_error` is caught, logged via `printf`,
and replaced by the fallback `std::regex("$^")`. -/
def patternCompile (compiled : Option RSearch) : RSearch :=
  match compiled with
  | some rs => rs
  | none => neverMatchSearch

/-- The base64 alphabet of `HybridLibprisma::base64_decode`'s table `T`. -/
def b64Alphabet : List Char :=
  ("ABCDEFGHIJKLMNOPQRSTUVWXYZabcdefghijklmnopqrstuvwxyz0123456789+/").toList

/-- Table lookup `T[c]`: the index of `c` in the alphabet, or `none` where
the C++ table holds `-1` (every byte outside the 64-character alphabet,
including `'='`). -/
def b64T (c : Char) : Option Nat := b64Alphabet.indexOf? c

/-- The accumulation loop of `HybridLibprisma::base64_decode`: `val` is the
32-bit bit accumulator (`val = (val << 6) + T[c]`, kept modulo `2^32` where
the C++ `int` wraps), `valb` the signed bit counter starting at `-8`; a byte
`(val >> valb) & 0xFF` is emitted whenever `valb` reaches 0 or more. The
first character with `T[c] == -1` stops the loop (`break`) and the bytes
accumulated so far are returned. -/
def base64_decode_go : List Char → Nat → Int → List Nat
  | [], _, _ => []
  | c :: rest, val, valb =>
      match b64T c with
      | none => []
      | some t =>
          let val' := ((val <<< 6) + t) % 4294967296
          let valb' := valb + 6
          if 0 ≤ valb' then
            ((val' >>> valb'.toNat) % 256) :: base64_decode_go rest val' (valb' - 8)
          else
            base64_decode_go rest val' valb'

/-- `HybridLibprisma::base64_decode`, as the list of decoded bytes. -/
def base64_decode (inp : List Char) : List Nat := base64_decode_go inp 0 (-8)

/-- The zlib inflate step of `HybridLibprisma::gzip_decompress`, abstracted:
the function either produces the decompressed bytes or the error
`gzip_decompress` throws as `std::runtime_error` when the stream does not end
in `Z_STREAM_END`. -/
def Inflate : Type := List Nat → Except (List Char) (List Nat)

/-- `HybridLibprisma::loadGrammars` acting on the `m_highlighter` member
state: if a highlighter is already installed, return at once; otherwise
base64-decode the payload, gzip-decompress it (`inflate`, which may throw,
modelled as `Except.error`), and install the highlighter built from the
decompressed bytes (`mkHighlighter` abstracts the `SyntaxHighlighter`
constructor, which is not among this repository's sources). -/
def loadGrammars (inflate : Inflate) (mkHighlighter : List Nat → Registry)
    (grammars : List Char) (st : Option Registry) :
    Except (List Char) (Option Registry) :=
  match st with
  | some h => .ok (some h)
  | none =>
      match inflate (base64_decode grammars) with
      | .error e => .error e
      | .ok dec => .ok (some (mkHighlighter dec))

/-- The `m_highlighter` member after a `loadGrammars` call: a thrown
exception propagates to the caller and leaves the member as it was. -/
def loadGrammarsState (inflate : Inflate) (mkHighlighter : List Nat → Registry)
    (grammars : List Char) (st : Option Registry) : Option Registry :=
  match loadGrammars inflate mkHighlighter grammars st with
  | .ok s => s
  | .error _ => st

/-- `HybridLibprisma::tokenizeToJson`: with no highlighter loaded the string
`"[]"` is returned; otherwise the tokenizer runs (the engine modelled from
the spec) and the token list is rendered by `tokensToJson`. -/
def tokenizeToJson (st : Option Registry) (code lang : List Char) : List Char :=
  match st with
  | none => ['[', ']']
  | some reg => tokensToJson (tokenize reg code lang)

/-! ## Theorems -/

theorem cover_split (x : List Char) (s l : Nat) :
    x.take s ++ ((x.drop s).take l ++ x.drop (s + l)) = x := by
  have h1 : x.drop (s + l) = (x.drop s).drop l := by
    rw [List.drop_drop, Nat.add_comm]
  rw [h1, List.take_append_drop, List.take_append_drop]

/-- The scanning loop covers its window exactly: the concatenated leaf text
of the emitted tokens is the window, for every fuel, grammar and registry. -/
theorem leavesToks_tokLoop (reg : Registry) :
    ∀ (fuel : Nat) (g : List MPattern) (rem : List Char),
      leavesToks (tokLoop reg fuel g rem) = rem := by
  intro fuel
  induction fuel with
  | zero =>
      intro g rem
      cases rem <;> simp [tokLoop, leavesToks, leavesTok]
  | succ n ih =>
      intro g rem
      have hch : ∀ (p : MPattern) (matched : List Char),
          leavesToks (match p.inside with
            | none => TokList.cons (.text matched) .nil
            | some lang =>
                match lookupGrammar reg lang with
                | none => TokList.cons (.text matched) .nil
                | some inner => tokLoop reg n inner matched) = matched := by
        intro p matched
        cases p.inside with
        | none => simp [leavesToks, leavesTok]
        | some lang =>
            cases hlk : lookupGrammar reg lang <;>
              simp [hlk, leavesToks, leavesTok, ih]
      cases rem with
      | nil => simp [tokLoop, leavesToks]
      | cons c rest =>
          rw [tokLoop]
          cases hfm : firstMatch g (c :: rest) with
          | none =>
              cases hhit : anySearchHit g (c :: rest) with
              | true => simp [leavesToks, leavesTok, ih]
              | false => simp [leavesToks, leavesTok]
          | some pr =>
              obtain ⟨p, s, l⟩ := pr
              cases s with
              | zero =>
                  simp only [leavesToks, leavesTok, hch, ih]
                  simp [List.take_append_drop]
              | succ s' =>
                  simp only [leavesToks, leavesTok, hch, ih]
                  exact cover_split (c :: rest) (s' + 1) l

/-- C1: for every code string, language identifier and grammar registry —
including unknown languages — concatenating the leaf text of
`tokenize(code, language)` in tree order yields `code` exactly: no loss, no
duplication. -/
theorem tokenize_coverage (reg : Registry) (code lang : List Char) :
    leavesToks (tokenize reg code lang) = code := by
  unfold tokenize
  cases lookupGrammar reg lang with
  | none => simp [leavesToks, leavesTok]
  | some g => simp [leavesToks_tokLoop]

/-- C3 (amended): a `tokenizeToJson` call made before any successful grammar
load returns the empty token array `"[]"`, for every code string and every
language identifier — not a plain-text classification of the input. -/
theorem tokenizeToJson_before_load (code lang : List Char) :
    tokenizeToJson none code lang = ['[', ']'] := rfl

/-- C3 (counterexample): on input `"a"`, a pre-load `tokenizeToJson` call
returns `"[]"`, which is not the wire form of the whole input classified as
plain text. -/
theorem tokenizeToJson_before_load_not_plain_text :
    tokenizeToJson none ['a'] ['j', 's'] ≠
      tokensToJson (.cons (.text ['a']) .nil) := by decide

/-- C6: `loadGrammars` is idempotent — with a highlighter already installed,
a second call returns at once with the state exactly as it was, for every
payload and even for every decompression behaviour (no re-parse: the inflate
step is never consulted). -/
theorem loadGrammars_idempotent (inflate : Inflate)
    (mkHighlighter : List Nat → Registry) (grammars : List Char)
    (h : Registry) :
    loadGrammars inflate mkHighlighter grammars (some h) = .ok (some h) := rfl

/-- C7: when gzip decompression of the (base64-decoded) payload fails,
`loadGrammars` surfaces the error to its caller instead of returning
normally, and the highlighter state is unchanged: no registry is
installed. -/
theorem loadGrammars_decompress_error (inflate : Inflate)
    (mkHighlighter : List Nat → Registry) (grammars : List Char)
    (e : List Char) (herr : inflate (base64_decode grammars) = .error e) :
    loadGrammars inflate mkHighlighter grammars none = .error e ∧
    loadGrammarsState inflate mkHighlighter grammars none = none := by
  unfold loadGrammarsState loadGrammars
  rw [herr]
  exact ⟨rfl, rfl⟩

/-- C7 (witness): a concrete failing inflate behaviour at a concrete
payload. -/
theorem loadGrammars_decompress_error_witness :
    loadGrammars (fun _ => .error ['b', 'a', 'd']) (fun _ => [])
        ['Q', 'Q'] none = .error ['b', 'a', 'd'] ∧
    loadGrammarsState (fun _ => .error ['b', 'a', 'd']) (fun _ => [])
        ['Q', 'Q'] none = none :=
  loadGrammars_decompress_error (fun _ => .error ['b', 'a', 'd'])
    (fun _ => []) ['Q', 'Q'] ['b', 'a', 'd'] rfl

/-- C8: `tokenize` with a language identifier not present in the registry
returns exactly one text token holding the full original input, whose wire
form is `[{"type":"text","content": code}]` (content escaped by
`escapeJson`). -/
theorem tokenize_unknown_language (reg : Registry) (code lang : List Char)
    (h : lookupGrammar reg lang = none) :
    tokenize reg code lang = .cons (.text code) .nil ∧
    tokensToJson (tokenize reg code lang) =
      ("[\x7b\"type\":\"text\",\"content\":\"").toList ++ escapeJson code ++
        ("\"\x7d]").toList := by
  unfold tokenize
  rw [h]
  refine ⟨rfl, ?_⟩
  simp [tokensToJson, tokensBody, tokensTail, tokenNodeToJson, wireTextHead]

/-- C8 (witness): the empty registry does not know language `"js"`; on input
`"hi"` the fallback produces the single-text-token wire form. -/
theorem tokenize_unknown_language_witness :
    tokenize [] ['h', 'i'] ['j', 's'] = .cons (.text ['h', 'i']) .nil ∧
    tokensToJson (tokenize [] ['h', 'i'] ['j', 's']) =
      ("[\x7b\"type\":\"text\",\"content\":\"").toList ++
        escapeJson ['h', 'i'] ++ ("\"\x7d]").toList :=
  tokenize_unknown_language [] ['h', 'i'] ['j', 's'] rfl

/-- C9: the zero-length-match guard. When no rule produces a valid non-empty
match on the current window but some rule did report a (zero-length) match,
the loop emits the single character at the cursor as a text token and
advances the cursor by one — forward progress on every step, and the loop is
a total function, so tokenizing any finite input terminates. -/
theorem tokLoop_zero_length_guard (reg : Registry) (n : Nat)
    (g : List MPattern) (c : Char) (rest : List Char)
    (hnm : firstMatch g (c :: rest) = none)
    (hhit : anySearchHit g (c :: rest) = true) :
    tokLoop reg (n + 1) g (c :: rest) =
      .cons (.text [c]) (tokLoop reg n g rest) := by
  rw [tokLoop, hnm]
  simp [hhit]

/-- C9 (witness): a grammar whose single pattern always reports a zero-length
match at the cursor; on input `"a"` the guard fires and the loop emits the
character and terminates. -/
theorem tokLoop_zero_length_guard_witness :
    firstMatch [⟨['t'], [], fun _ => some (0, 0), none⟩] ['a'] = none ∧
    anySearchHit [⟨['t'], [], fun _ => some (0, 0), none⟩] ['a'] = true ∧
    tokLoop [] 1 [⟨['t'], [], fun _ => some (0, 0), none⟩] ['a'] =
      .cons (.text ['a'])
        (tokLoop [] 0 [⟨['t'], [], fun _ => some (0, 0), none⟩] []) :=
  ⟨rfl, rfl,
    tokLoop_zero_length_guard [] 0 [⟨['t'], [], fun _ => some (0, 0), none⟩]
      'a' [] rfl rfl⟩

/-- C4 (counterexample): the claim that a failed-compile pattern returns
not-matched for every text and every start position is false — the fallback
regex `"$^"` produces a (zero-length) match when the searched range is
empty: here on the empty text at position 0, `Pattern::match` reports
success. -/
theorem failedPattern_matches_empty_range :
    (patternMatch (patternCompile none) false [] 0).1 = true := rfl

/-- C4 (amended): a pattern whose source regex fails to compile keeps the
logged fallback regex and never matches at any start position strictly
inside the text; only at `pos = text.length` (an empty search window,
including the empty text) does it report a zero-length empty match. The
failure is caught in the constructor (logged, not thrown), so the grammar
remains usable minus that rule. -/
theorem failedPattern_never_matches_inside (lookbehind : Bool)
    (text : List Char) (pos : Nat) :
    (pos < text.length →
      patternMatch (patternCompile none) lookbehind text pos =
        (false, pos, [])) ∧
    (text.length ≤ pos →
      patternMatch (patternCompile none) lookbehind text pos =
        (true, pos, [])) := by
  constructor
  · intro hlt
    have hn : patternCompile none text pos = none := by
      show neverMatchSearch text pos = none
      unfold neverMatchSearch
      exact if_neg (by omega)
    unfold patternMatch
    rw [hn]
  · intro hle
    have hn : patternCompile none text pos = some ⟨0, 0, none⟩ := by
      show neverMatchSearch text pos = some ⟨0, 0, none⟩
      unfold neverMatchSearch
      exact if_pos hle
    unfold patternMatch
    rw [hn]
    cases lookbehind <;> simp

/-- C4 (witness): on text `"a"`, the failed-compile pattern does not match at
position 0 and reports the empty end-of-text match at position 1. -/
theorem failedPattern_never_matches_inside_witness :
    patternMatch (patternCompile none) false ['a'] 0 = (false, 0, []) ∧
    patternMatch (patternCompile none) false ['a'] 1 = (true, 1, []) :=
  ⟨(failedPattern_never_matches_inside false ['a'] 0).1 (by decide),
   (failedPattern_never_matches_inside false ['a'] 1).2 (by decide)⟩

/-- C5: when the regex search succeeds, `Pattern::match` reports the full
match — `pos` becomes the match start and the returned view is the matched
span — and when the lookbehind flag is set and the first capture group
matched, the effective span drops exactly that group's leading length from
the start of the full match, beginning after the lookbehind prefix. -/
theorem patternMatch_spans (rsearch : RSearch) (lookbehind : Bool)
    (text : List Char) (pos : Nat) (m : RegexMatch)
    (hs : rsearch text pos = some m) :
    ((lookbehind = false ∨ m.g1len = none) →
      patternMatch rsearch lookbehind text pos =
        (true, pos + m.rpos, (text.drop (pos + m.rpos)).take m.rlen)) ∧
    (∀ lbLen, lookbehind = true → m.g1len = some lbLen →
      patternMatch rsearch lookbehind text pos =
        (true, pos + m.rpos + lbLen,
          ((text.drop (pos + m.rpos)).take m.rlen).drop lbLen)) := by
  constructor
  · intro hcase
    unfold patternMatch
    rw [hs]
    rcases hcase with hl | hg
    · subst hl; rfl
    · cases lookbehind <;> simp [hg]
  · intro lbLen hl hg
    subst hl
    unfold patternMatch
    rw [hs]
    simp only [hg]
    rw [List.drop_take, List.drop_drop]

/-- C5 (witness): a concrete search result (match at offset 1, length 3,
first group of length 2) on `"abcdef"` at start position 1, exercised with
and without the lookbehind flag. -/
theorem patternMatch_spans_witness :
    patternMatch (fun _ _ => some ⟨1, 3, some 2⟩) false ("abcdef").toList 1 =
      (true, 2, ((("abcdef").toList.drop 2).take 3)) ∧
    patternMatch (fun _ _ => some ⟨1, 3, some 2⟩) true ("abcdef").toList 1 =
      (true, 4, (((("abcdef").toList.drop 2).take 3).drop 2)) :=
  ⟨(patternMatch_spans (fun _ _ => some ⟨1, 3, some 2⟩) false
      ("abcdef").toList 1 ⟨1, 3, some 2⟩ rfl).1 (Or.inl rfl),
   (patternMatch_spans (fun _ _ => some ⟨1, 3, some 2⟩) true
      ("abcdef").toList 1 ⟨1, 3, some 2⟩ rfl).2 2 rfl rfl⟩

/-- The base64 accumulation loop ignores everything from the first character
outside the alphabet on, whatever the accumulator state. -/
theorem base64_decode_go_takeWhile (inp : List Char) :
    ∀ (val : Nat) (valb : Int),
      base64_decode_go inp val valb =
        base64_decode_go (inp.takeWhile (fun c => (b64T c).isSome)) val valb := by
  induction inp with
  | nil => intro val valb; rfl
  | cons c rest ih =>
      intro val valb
      cases ht : b64T c with
      | none => simp [base64_decode_go, List.takeWhile_cons, ht]
      | some t =>
          simp only [base64_decode_go, List.takeWhile_cons, ht,
            Option.isSome_some, if_true]
          split <;> simp [base64_decode_go, ht, ih]

/-- C10: `base64_decode` decodes only up to the first character outside the
64-character alphabet and silently returns the bytes accumulated so far:
the table maps `'='` (and every other non-alphabet byte) to `-1`, which
breaks the loop without any error — a truncated or corrupted payload yields
a silently shortened byte string. Concretely, `"QUJ=D"` decodes to the two
bytes of `"AB"` even though data follows the `'='`. -/
theorem base64_decode_stops_at_invalid :
    (∀ inp : List Char,
      base64_decode inp =
        base64_decode (inp.takeWhile (fun c => (b64T c).isSome))) ∧
    b64T '=' = none ∧
    base64_decode (("QUJ=D").toList) = [65, 66] := by
  refine ⟨fun inp => base64_decode_go_takeWhile inp 0 (-8), by decide, by decide⟩

theorem expectLit_append (l : List Char) : ∀ s, expectLit l (l ++ s) = some s := by
  induction l with
  | nil => intro s; rfl
  | cons c cs ih => intro s; simp [expectLit, ih]

theorem sizeTok_pos (t : Token) : 1 ≤ sizeTok t := by
  cases t with
  | text s => simp [sizeTok]
  | node ty al cs => simp [sizeTok]

theorem sizeToks_pos (ts : TokList) : 1 ≤ sizeToks ts := by
  cases ts with
  | nil => simp [sizeToks]
  | cons t ts =>
      have := sizeTok_pos t
      simp [sizeToks]
      omega

/-- The strict JSON string parser inverts `escapeJson` on strings free of the
raw control characters the escape cannot handle, whatever follows the
closing quote. -/
theorem parseStringBody_escapeJson (s : List Char) :
    ∀ (rest : List Char), goodStr s = true →
      parseStringBody (escapeJson s ++ '"' :: rest) = some (s, rest) := by
  induction s with
  | nil => intro rest _; rfl
  | cons c s ih =>
      intro rest hg
      obtain ⟨hc, hs⟩ : goodChar c = true ∧ goodStr s = true := by
        simpa [goodStr, List.all_cons, Bool.and_eq_true] using hg
      show parseStringBody ((escChar c ++ escapeJson s) ++ '"' :: rest) = _
      by_cases h1 : c = '"'
      · subst h1; simp [escChar, parseStringBody, parseEscTail, unescChar, ih rest hs]
      · by_cases h2 : c = '\\'
        · subst h2; simp [escChar, parseStringBody, parseEscTail, unescChar, ih rest hs]
        · by_cases h3 : c = Char.ofNat 8
          · subst h3; simp [escChar, parseStringBody, parseEscTail, unescChar, ih rest hs]
          · by_cases h4 : c = Char.ofNat 12
            · subst h4; simp [escChar, parseStringBody, parseEscTail, unescChar, ih rest hs]
            · by_cases h5 : c = '\n'
              · subst h5; simp [escChar, parseStringBody, parseEscTail, unescChar, ih rest hs]
              · by_cases h6 : c = Char.ofNat 13
                · subst h6
                  simp [escChar, parseStringBody, parseEscTail, unescChar, ih rest hs]
                · by_cases h7 : c = '\t'
                  · subst h7
                    simp [escChar, parseStringBody, parseEscTail, unescChar, ih rest hs]
                  · have hge : ¬ c.toNat < 32 := by
                      simp [goodChar, h3, h4, h5, h6, h7] at hc
                      omega
                    simp [escChar, h1, h2, h3, h4, h5, h6, h7,
                      parseStringBody, hge, ih rest hs]

theorem expectLit_self (l : List Char) (s : List Char) :
    expectLit l (l ++ s) = some s := expectLit_append l s

theorem tokenNodeToJson_front (t : Token) :
    ∃ u, tokenNodeToJson t = Char.ofNat 123 :: u := by
  cases t with
  | text v => exact ⟨_, rfl⟩
  | node ty al cs =>
      cases al <;> cases cs <;> exact ⟨_, rfl⟩

mutual

theorem parseTok_inv (t : Token) : ∀ (fuel : Nat) (rest : List Char),
    sizeTok t ≤ fuel → wfTok t = true →
    parseTok fuel (tokenNodeToJson t ++ rest) = some (t, rest) := by
  cases t with
  | text v =>
      intro fuel rest hsz hwf
      match fuel, hsz with
      | f + 1, _ =>
        have hgv : goodStr v = true := by simpa [wfTok] using hwf
        have e5 := parseStringBody_escapeJson v (Char.ofNat 125 :: rest) hgv
        simp only [tokenNodeToJson, List.append_assoc, List.cons_append,
          List.nil_append]
        simp only [parseTok]
        simp [parseStringBody, expectLit, e5, wireTextHead, wireTypeHead]
  | node ty al cs =>
      intro fuel rest hsz hwf
      match fuel, hsz with
      | f + 1, hsz =>
        cases cs with
        | nil => simp [wfTok] at hwf
        | cons c cs' =>
          obtain ⟨⟨hgty, hgal⟩, hwcs⟩ :
              (goodStr ty = true ∧ goodStr al = true) ∧
                wfToks (.cons c cs') = true := by
            simpa [wfTok, Bool.and_eq_true, and_assoc] using hwf
          have hszcs : sizeToks (TokList.cons c cs') < f := by
            simp only [sizeTok] at hsz; omega
          have hts := parseToks_inv (.cons c cs') f (Char.ofNat 125 :: rest)
            hszcs hwcs
          simp only [tokensToJson, tokensBody, List.append_assoc,
            List.cons_append, List.nil_append] at hts
          by_cases hal : al = []
          · subst hal
            simp [parseTok, tokenNodeToJson, parseStringBody, expectLit,
              wireTypeHead, wireAliasHead, wireContentHead,
              parseStringBody_escapeJson ty, hgty, hts]
          · rcases al with _ | ⟨a, al'⟩
            · exact absurd rfl hal
            · simp [parseTok, tokenNodeToJson, parseStringBody, expectLit,
                wireTypeHead, wireAliasHead, wireContentHead,
                parseStringBody_escapeJson ty, hgty,
                parseStringBody_escapeJson (a :: al'), hgal, hts]

theorem parseToks_inv (ts : TokList) : ∀ (fuel : Nat) (rest : List Char),
    sizeToks ts < fuel → wfToks ts = true →
    parseToks fuel (tokensToJson ts ++ rest) = some (ts, rest) := by
  cases ts with
  | nil =>
      intro fuel rest hsz hwf
      match fuel, hsz with
      | f + 1, _ => simp [tokensToJson, tokensBody, parseToks]
  | cons c cs' =>
      intro fuel rest hsz hwf
      match fuel, hsz with
      | f + 1, hsz =>
        obtain ⟨hwc, hwcs⟩ : wfTok c = true ∧ wfToks cs' = true := by
          simpa [wfToks, Bool.and_eq_true] using hwf
        have hp1 := sizeTok_pos c
        have hp2 := sizeToks_pos cs'
        simp only [sizeToks] at hsz
        have htc := parseTok_inv c f (tokensTail cs' ++ ']' :: rest)
          (by omega) hwc
        have htm := parseMore_inv cs' f rest (by omega) hwcs
        obtain ⟨u, hu⟩ := tokenNodeToJson_front c
        rw [hu] at htc
        simp only [List.cons_append] at htc
        simp only [tokensToJson, tokensBody, List.append_assoc,
          List.cons_append, List.nil_append, hu]
        simp [parseToks, htc, htm]

theorem parseMore_inv (ts : TokList) : ∀ (fuel : Nat) (rest : List Char),
    sizeToks ts ≤ fuel → wfToks ts = true →
    parseMore fuel (tokensTail ts ++ ']' :: rest) = some (ts, rest) := by
  cases ts with
  | nil =>
      intro fuel rest hsz hwf
      cases fuel with
      | zero => simp only [sizeToks] at hsz; omega
      | succ f => simp [tokensTail, parseMore]
  | cons c cs' =>
      intro fuel rest hsz hwf
      cases fuel with
      | zero =>
          have hp1 := sizeTok_pos c
          have hp2 := sizeToks_pos cs'
          simp only [sizeToks] at hsz
          omega
      | succ f =>
        obtain ⟨hwc, hwcs⟩ : wfTok c = true ∧ wfToks cs' = true := by
          simpa [wfToks, Bool.and_eq_true] using hwf
        have hp1 := sizeTok_pos c
        have hp2 := sizeToks_pos cs'
        simp only [sizeToks] at hsz
        have htc := parseTok_inv c f (tokensTail cs' ++ ']' :: rest)
          (by omega) hwc
        have htm := parseMore_inv cs' f rest (by omega) hwcs
        simp only [tokensTail, List.append_assoc, List.cons_append,
          List.nil_append]
        simp [parseMore, htc, htm]

end

mutual

theorem sizeTok_le_render (t : Token) :
    sizeTok t ≤ (tokenNodeToJson t).length := by
  cases t with
  | text v =>
      simp [tokenNodeToJson, sizeTok, wireTextHead]
  | node ty al cs =>
      cases cs with
      | nil =>
          cases al with
          | nil =>
              simp [tokenNodeToJson, sizeTok, sizeToks, wireTypeHead,
                wireAliasHead, wireContentHead]
          | cons a al' =>
              simp [tokenNodeToJson, sizeTok, sizeToks, wireTypeHead,
                wireAliasHead, wireContentHead]
      | cons c cs' =>
          have ha := sizeTok_le_render c
          have hb := sizeToks_le_tail cs'
          cases al with
          | nil =>
              simp [tokenNodeToJson, sizeTok, sizeToks, wireTypeHead,
                wireAliasHead, wireContentHead]
              omega
          | cons a al' =>
              simp [tokenNodeToJson, sizeTok, sizeToks, wireTypeHead,
                wireAliasHead, wireContentHead]
              omega

theorem sizeToks_le_tail (ts : TokList) :
    sizeToks ts ≤ (tokensTail ts).length + 1 := by
  cases ts with
  | nil => simp [sizeToks, tokensTail]
  | cons t ts' =>
      have ha := sizeTok_le_render t
      have hb := sizeToks_le_tail ts'
      simp only [sizeToks, tokensTail, List.length_cons, List.length_append]
      omega

end

theorem sizeToks_lt_render (ts : TokList) :
    sizeToks ts < (tokensToJson ts).length + 1 := by
  cases ts with
  | nil => simp [sizeToks, tokensToJson, tokensBody]
  | cons c cs' =>
      have ha := sizeTok_le_render c
      have hb := sizeToks_le_tail cs'
      simp only [sizeToks, tokensToJson, tokensBody, List.length_cons,
        List.length_append]
      omega

/-- C2 (amended): round-trip serialization holds for every well-formed token
tree — syntax nodes with non-empty children, as `tokenize` produces, and all
strings free of raw control characters other than the five `escapeJson`
escapes: rendering with `tokensToJson` and parsing the wire string back
reconstructs the identical tree. -/
theorem parse_render_roundtrip (ts : TokList) (hwf : wfToks ts = true) :
    parse (tokensToJson ts) = some ts := by
  unfold parse
  have h := parseToks_inv ts ((tokensToJson ts).length + 1) []
    (sizeToks_lt_render ts) hwf
  rw [List.append_nil] at h
  rw [h]

/-- C2 (witness): a two-node tree with a nested child, an alias, an escaped
quote and a newline round-trips. -/
theorem parse_render_roundtrip_witness :
    wfToks (.cons (.node ("kw").toList ("pn").toList
        (.cons (.text ("a\n\"b").toList) .nil))
      (.cons (.text ("c").toList) .nil)) = true ∧
    parse (tokensToJson (.cons (.node ("kw").toList ("pn").toList
        (.cons (.text ("a\n\"b").toList) .nil))
      (.cons (.text ("c").toList) .nil))) =
      some (.cons (.node ("kw").toList ("pn").toList
        (.cons (.text ("a\n\"b").toList) .nil))
      (.cons (.text ("c").toList) .nil)) :=
  ⟨rfl, parse_render_roundtrip _ rfl⟩

/-- C2 (counterexample): the claim fails as stated — `escapeJson` passes the
control character U+0001 through raw, so the tree `tokenize` produces for
input `"\u0001"` under an unknown language renders to a wire string that is
not valid JSON, and parsing fails instead of reconstructing the tree. -/
theorem parse_render_ctrl_char_fails :
    tokenize [] [Char.ofNat 1] (("js").toList) =
      .cons (.text [Char.ofNat 1]) .nil ∧
    parse (tokensToJson (.cons (.text [Char.ofNat 1]) .nil)) = none :=
  ⟨rfl, rfl⟩

end Libprisma
